import Mathlib

/-
Verification of the append-challenged posix file scheduler
(src/src/core/file-impl.hh, class append_challenged_posix_file_impl).

The repository ships only the header: the data members, the operation
record, the lifecycle enum and the inline enqueue template are taken
directly from src/src/core/file-impl.hh.  The bodies of the private
member functions (may_dispatch, size_changing, must_run_alone, dispatch,
process_queue, commit_size, may_quit, enqueue_op) and of the public
entry points live in a .cc file that is not part of src/, so those are
modelled from the spec, as indicated on each definition.
-/

namespace AppendChallenged

/-- Opcode of a pending operation, from the header's enum class opcode. -/
inductive Opcode where
  | invalid
  | read
  | write
  | truncate
  | flush
deriving DecidableEq, Repr

/-- A pending operation, from the header's struct op: opcode, position and
length.  The noncopyable run closure is not needed for the scheduling
theorems; for a truncate the target length travels in pos (len is 0). -/
structure Op where
  type : Opcode
  pos : Nat
  len : Nat
deriving DecidableEq, Repr

/-- Lifecycle states, from the header's enum class state.  The source
constructor name open is a Lean keyword, hence open_. -/
inductive state where
  | open_
  | draining
  | closing
  | closed
deriving DecidableEq, Repr

/-- A dispatched, not yet completed operation, together with its
classification as recorded at dispatch time (which in-flight counter,
or the exclusive flag, it occupies). -/
structure InFlight where
  o : Op
  sc : Bool
  excl : Bool
deriving DecidableEq, Repr

/-- The scheduler state of one append_challenged_posix_file_impl object.
Fields committed_size, logical_size, q, max_size_changing_ops,
current_non_size_changing_ops, current_size_changing_ops,
fsync_is_exclusive, closing_state, sloppy_size, sloppy_size_hint are the
header's data members (leading underscores dropped).  exclusive_running
is the spec's flag for an exclusive operation currently executing,
inflight is the set of dispatched operations, and close_fulfilled
records whether the _completed promise has been resolved. -/
structure State where
  committed_size : Nat
  logical_size : Nat
  q : List Op
  max_size_changing_ops : Nat
  current_non_size_changing_ops : Nat
  current_size_changing_ops : Nat
  exclusive_running : Bool
  fsync_is_exclusive : Bool
  closing_state : state
  sloppy_size : Bool
  sloppy_size_hint : Nat
  inflight : List InFlight
  close_fulfilled : Bool
deriving DecidableEq, Repr

/-- Modelled from the spec: size_changing (body in file-impl.cc, not in
src/).  A Write is size-changing iff offset+length exceeds the committed
size; a Truncate is always size-changing; Read and Flush never are. -/
def size_changing (s : State) (candidate : Op) : Bool :=
  match candidate.type with
  | Opcode.write => decide (s.committed_size < candidate.pos + candidate.len)
  | Opcode.truncate => true
  | _ => false

/-- Modelled from the spec: must_run_alone (body in file-impl.cc, not in
src/).  An operation is exclusive exactly when it is a flush and fsync
is exclusive on this filesystem. -/
def must_run_alone (s : State) (candidate : Op) : Bool :=
  decide (candidate.type = Opcode.flush) && s.fsync_is_exclusive

/-- Modelled from the spec: may_dispatch (body in file-impl.cc, not in
src/).  Exclusive candidates need both in-flight counters zero and no
exclusive operation running; size-changing candidates need the
size-changing count below the maximum and no exclusive operation
running; ordinary candidates only need no exclusive operation running. -/
def may_dispatch (s : State) (candidate : Op) : Bool :=
  if must_run_alone s candidate then
    decide (s.current_size_changing_ops = 0 ∧ s.current_non_size_changing_ops = 0
      ∧ s.exclusive_running = false)
  else if size_changing s candidate then
    decide (s.current_size_changing_ops < s.max_size_changing_ops
      ∧ s.exclusive_running = false)
  else
    decide (s.exclusive_running = false)

/-- Modelled from the spec: commit_size (declared in the header, body in
file-impl.cc).  Sets committed_size to the maximum of its old value and
the newly confirmed size, so it never regresses. -/
def commit_size (s : State) (sz : Nat) : State :=
  { s with committed_size := max s.committed_size sz }

/-- Resulting file size confirmed by a completed size-changing
operation: end of the written range for a write, the target length for a
truncate (carried in pos). -/
def op_new_size (o : Op) : Nat :=
  match o.type with
  | Opcode.write => o.pos + o.len
  | Opcode.truncate => o.pos
  | _ => 0

/-- Modelled from the spec: on admitting a size-extending write the
logical size is raised to max(logical_size, offset+length) before the
write is dispatched; a truncate makes the API report exactly the
requested length. -/
def update_logical (s : State) (candidate : Op) : State :=
  match candidate.type with
  | Opcode.write => { s with logical_size := max s.logical_size (candidate.pos + candidate.len) }
  | Opcode.truncate => { s with logical_size := candidate.pos }
  | _ => s

/-- Book-keeping of a newly dispatched operation: set the exclusive flag
for an exclusive operation, otherwise bump the counter matching its
classification, and record it as in flight. -/
def add_inflight (s : State) (i : InFlight) : State :=
  if i.excl then
    { s with exclusive_running := true, inflight := i :: s.inflight }
  else if i.sc then
    { s with current_size_changing_ops := s.current_size_changing_ops + 1,
             inflight := i :: s.inflight }
  else
    { s with current_non_size_changing_ops := s.current_non_size_changing_ops + 1,
             inflight := i :: s.inflight }

/-- Modelled from the spec: dispatch (body in file-impl.cc, not in
src/).  Updates the logical size, then increments the relevant in-flight
counter or sets the exclusive flag, recording the candidate's
classification at dispatch time. -/
def dispatch (s : State) (candidate : Op) : State :=
  add_inflight (update_logical s candidate)
    { o := candidate, sc := size_changing s candidate, excl := must_run_alone s candidate }

/-- Modelled from the spec: the front-to-back scan of process_queue
(body in file-impl.cc, not in src/).  A dispatchable candidate is
removed and dispatched; a blocked exclusive candidate stops the scan so
nothing behind it can overtake it; a blocked non-exclusive candidate is
passed over.  Returns the post-scan state and the remaining queue. -/
def scanQueue : State → List Op → State × List Op
  | s, [] => (s, [])
  | s, c :: rest =>
    if may_dispatch s c then
      scanQueue (dispatch s c) rest
    else if must_run_alone s c then
      (s, c :: rest)
    else
      let r := scanQueue s rest
      (r.1, c :: r.2)

/-- Modelled from the spec: may_quit (declared in the header, body in
file-impl.cc).  The draining state may give way to closing only once the
queue is empty, both in-flight counters are zero and no exclusive
operation is running. -/
def may_quit (s : State) : Bool :=
  decide (s.closing_state = state.draining ∧ s.q = []
    ∧ s.current_non_size_changing_ops = 0 ∧ s.current_size_changing_ops = 0
    ∧ s.exclusive_running = false)

/-- The draining to closing transition test at the end of the dispatch
loop: when the file is draining and fully quiesced, move to closing. -/
def quit_check (t : State) : State :=
  if may_quit t then { t with closing_state := state.closing } else t

/-- Modelled from the spec: process_queue (body in file-impl.cc, not in
src/).  Scans the queue dispatching what it may, then, when the file is
draining and fully quiesced, takes the draining to closing transition.
The optimize_queue pass is optional in the spec and is a no-op with
sloppy size disabled, so it adds nothing here. -/
def process_queue (s : State) : State :=
  quit_check { (scanQueue s s.q).1 with q := (scanQueue s s.q).2 }

/-- Modelled from the spec: enqueue_op (declared in the header, body in
file-impl.cc).  Appends the operation to the pending queue and invokes
the dispatch loop. -/
def enqueue_op (s : State) (o : Op) : State :=
  process_queue { s with q := s.q ++ [o] }

/-- Undo the dispatch-time book-keeping of a completed operation: clear
the exclusive flag, or decrement the counter the operation occupied. -/
def dec_counter (s : State) (i : InFlight) : State :=
  if i.excl then { s with exclusive_running := false }
  else if i.sc then
    { s with current_size_changing_ops := s.current_size_changing_ops - 1 }
  else
    { s with current_non_size_changing_ops := s.current_non_size_changing_ops - 1 }

/-- Modelled from the spec: completion handling of a dispatched
operation (the continuation installed by dispatch, in file-impl.cc).
The operation leaves the in-flight set (given as the surrounding lists),
its counter is decremented or the exclusive flag cleared, a completed
size-changing operation commits its resulting size, and the dispatch
loop runs again. -/
def complete_op (s : State) (l₁ l₂ : List InFlight) (i : InFlight) : State :=
  process_queue
    (if i.sc then
      commit_size (dec_counter { s with inflight := l₁ ++ l₂ } i) (op_new_size i.o)
    else
      dec_counter { s with inflight := l₁ ++ l₂ } i)

/-- Modelled from the spec: close (declared in the header, body in
file-impl.cc).  A first call moves open to draining and runs the
dispatch loop; any later call observes the transition already under way
and changes nothing. -/
def close_step (s : State) : State :=
  if s.closing_state = state.open_ then
    process_queue { s with closing_state := state.draining }
  else s

/-- Modelled from the spec: the final descriptor release.  Once the
machine is in closing, the release finishes, the state becomes closed
and the promise behind close()'s future is fulfilled. -/
def release_step (s : State) : State :=
  if s.closing_state = state.closing then
    { s with closing_state := state.closed, close_fulfilled := true }
  else s

/-- Modelled from the spec: size (declared in the header, body in
file-impl.cc).  Returns the current logical size as an immediately
ready value, leaving the scheduler state untouched: no queueing, no
suspension. -/
def size (s : State) : Nat × State :=
  (s.logical_size, s)

/-- Initial scheduler state, from the header's constructor: both sizes
start at the file's size on open, queue and in-flight set empty,
lifecycle open. -/
def init (sz maxOps : Nat) (fsyncExcl : Bool) : State :=
  { committed_size := sz
    logical_size := sz
    q := []
    max_size_changing_ops := maxOps
    current_non_size_changing_ops := 0
    current_size_changing_ops := 0
    exclusive_running := false
    fsync_is_exclusive := fsyncExcl
    closing_state := state.open_
    sloppy_size := false
    sloppy_size_hint := 0
    inflight := []
    close_fulfilled := false }

/-- Outcome of the public submission path: either a future tied to the
queued operation, or an already-failed future carrying the caught
exception. -/
inductive EnqueueOutcome where
  | future_ok
  | exception_future
deriving DecidableEq, Repr

/-- The enqueue template from the header (src/src/core/file-impl.hh,
lines 195-210): allocate a shared promise, wrap the work, hand the
record to enqueue_op, return the future; any exception thrown on the way
is caught and returned as an already-failed future, so the method itself
never throws.  The two Bool arguments model the fallible allocations:
the shared-promise allocation and the queue push (which leaves the queue
untouched when it fails). -/
def enqueue (s : State) (type : Opcode) (pos len : Nat)
    (promise_alloc_ok queue_push_ok : Bool) : State × EnqueueOutcome :=
  if promise_alloc_ok && queue_push_ok then
    (enqueue_op s { type := type, pos := pos, len := len }, EnqueueOutcome.future_ok)
  else
    (s, EnqueueOutcome.exception_future)

/-- One scheduler step: a submission in the open state, the completion
of an in-flight operation, a call to close, or the end of the final
descriptor release. -/
inductive Step : State → State → Prop where
  | submit (s : State) (o : Op) :
      s.closing_state = state.open_ → Step s (enqueue_op s o)
  | complete (s : State) (l₁ l₂ : List InFlight) (i : InFlight) :
      s.inflight = l₁ ++ i :: l₂ → Step s (complete_op s l₁ l₂ i)
  | close (s : State) : Step s (close_step s)
  | release (s : State) : Step s (release_step s)

/-- States reachable from some initial state by scheduler steps. -/
inductive Reachable : State → Prop where
  | start (sz maxOps : Nat) (fsyncExcl : Bool) : Reachable (init sz maxOps fsyncExcl)
  | step {s t : State} : Reachable s → Step s t → Reachable t

/-- States reachable when no truncate is ever submitted: the same step
relation with submissions restricted to non-truncate operations. -/
inductive ReachableNT : State → Prop where
  | start (sz maxOps : Nat) (fsyncExcl : Bool) : ReachableNT (init sz maxOps fsyncExcl)
  | submit {s : State} (o : Op) : ReachableNT s → s.closing_state = state.open_ →
      o.type ≠ Opcode.truncate → ReachableNT (enqueue_op s o)
  | complete {s : State} (l₁ l₂ : List InFlight) (i : InFlight) : ReachableNT s →
      s.inflight = l₁ ++ i :: l₂ → ReachableNT (complete_op s l₁ l₂ i)
  | close {s : State} : ReachableNT s → ReachableNT (close_step s)
  | release {s : State} : ReachableNT s → ReachableNT (release_step s)

/-- Number of in-flight operations occupying the size-changing counter. -/
def countSC (l : List InFlight) : Nat :=
  (l.filter (fun i => !i.excl && i.sc)).length

/-- Number of in-flight operations occupying the non-size-changing counter. -/
def countNSC (l : List InFlight) : Nat :=
  (l.filter (fun i => !i.excl && !i.sc)).length

/-- Number of in-flight exclusive operations. -/
def countEx (l : List InFlight) : Nat :=
  (l.filter (fun i => i.excl)).length

theorem countSC_nil : countSC [] = 0 := rfl

theorem countNSC_nil : countNSC [] = 0 := rfl

theorem countEx_nil : countEx [] = 0 := rfl

theorem countSC_cons (i : InFlight) (l : List InFlight) :
    countSC (i :: l) = (if !i.excl && i.sc then 1 else 0) + countSC l := by
  cases hx : i.excl <;> cases hs : i.sc <;>
    simp [countSC, List.filter_cons, hx, hs, Nat.add_comm]

theorem countNSC_cons (i : InFlight) (l : List InFlight) :
    countNSC (i :: l) = (if !i.excl && !i.sc then 1 else 0) + countNSC l := by
  cases hx : i.excl <;> cases hs : i.sc <;>
    simp [countNSC, List.filter_cons, hx, hs, Nat.add_comm]

theorem countEx_cons (i : InFlight) (l : List InFlight) :
    countEx (i :: l) = (if i.excl then 1 else 0) + countEx l := by
  cases hx : i.excl <;>
    simp [countEx, List.filter_cons, hx, Nat.add_comm]

theorem countSC_append (l₁ l₂ : List InFlight) :
    countSC (l₁ ++ l₂) = countSC l₁ + countSC l₂ := by
  simp [countSC, List.filter_append]

theorem countNSC_append (l₁ l₂ : List InFlight) :
    countNSC (l₁ ++ l₂) = countNSC l₁ + countNSC l₂ := by
  simp [countNSC, List.filter_append]

theorem countEx_append (l₁ l₂ : List InFlight) :
    countEx (l₁ ++ l₂) = countEx l₁ + countEx l₂ := by
  simp [countEx, List.filter_append]

/-- Every in-flight record occupies exactly one of the three slots. -/
theorem count_partition (l : List InFlight) :
    countEx l + countSC l + countNSC l = l.length := by
  induction l with
  | nil => rfl
  | cons i l ih =>
    rw [countEx_cons, countSC_cons, countNSC_cons]
    cases hx : i.excl <;> cases hs : i.sc <;> simp [hx, hs] <;> omega

/-- If all three counts are zero, nothing is in flight. -/
theorem inflight_nil_of_counts (l : List InFlight)
    (hex : countEx l = 0) (hsc : countSC l = 0) (hnsc : countNSC l = 0) :
    l = [] := by
  have h := count_partition l
  rw [hex, hsc, hnsc] at h
  exact List.length_eq_zero.mp h.symm

theorem countEx_pos_of_mem {l : List InFlight} {i : InFlight}
    (hm : i ∈ l) (hx : i.excl = true) : 0 < countEx l := by
  have : i ∈ l.filter (fun j => j.excl) := List.mem_filter.mpr ⟨hm, hx⟩
  exact List.length_pos_of_mem this

theorem update_logical_keeps (s : State) (c : Op) :
    (update_logical s c).committed_size = s.committed_size ∧
    (update_logical s c).q = s.q ∧
    (update_logical s c).max_size_changing_ops = s.max_size_changing_ops ∧
    (update_logical s c).current_non_size_changing_ops = s.current_non_size_changing_ops ∧
    (update_logical s c).current_size_changing_ops = s.current_size_changing_ops ∧
    (update_logical s c).exclusive_running = s.exclusive_running ∧
    (update_logical s c).fsync_is_exclusive = s.fsync_is_exclusive ∧
    (update_logical s c).closing_state = s.closing_state ∧
    (update_logical s c).inflight = s.inflight ∧
    (update_logical s c).close_fulfilled = s.close_fulfilled := by
  unfold update_logical
  cases c.type <;> simp

theorem update_logical_ge (s : State) (c : Op) (h : c.type ≠ Opcode.truncate) :
    s.logical_size ≤ (update_logical s c).logical_size := by
  unfold update_logical
  cases hc : c.type <;> simp_all [Nat.le_max_left]

theorem add_inflight_keeps (s : State) (i : InFlight) :
    (add_inflight s i).committed_size = s.committed_size ∧
    (add_inflight s i).logical_size = s.logical_size ∧
    (add_inflight s i).q = s.q ∧
    (add_inflight s i).max_size_changing_ops = s.max_size_changing_ops ∧
    (add_inflight s i).fsync_is_exclusive = s.fsync_is_exclusive ∧
    (add_inflight s i).closing_state = s.closing_state ∧
    (add_inflight s i).inflight = i :: s.inflight ∧
    (add_inflight s i).close_fulfilled = s.close_fulfilled := by
  unfold add_inflight
  split
  · simp
  · split <;> simp

theorem dispatch_keeps (s : State) (c : Op) :
    (dispatch s c).committed_size = s.committed_size ∧
    (dispatch s c).q = s.q ∧
    (dispatch s c).max_size_changing_ops = s.max_size_changing_ops ∧
    (dispatch s c).fsync_is_exclusive = s.fsync_is_exclusive ∧
    (dispatch s c).closing_state = s.closing_state ∧
    (dispatch s c).close_fulfilled = s.close_fulfilled := by
  unfold dispatch
  obtain ⟨h1, h2, h3, h4, h5, h6, h7, h8, h9, h10⟩ := update_logical_keeps s c
  obtain ⟨g1, g2, g3, g4, g5, g6, g7, g8⟩ :=
    add_inflight_keeps (update_logical s c)
      { o := c, sc := size_changing s c, excl := must_run_alone s c }
  refine ⟨?_, ?_, ?_, ?_, ?_, ?_⟩ <;> simp_all

/-- The in-flight counters and exclusive flag agree with the in-flight
set, at most one exclusive operation exists and it runs alone, and the
size-changing counter respects the configured maximum. -/
structure InvCore (s : State) : Prop where
  sc_count : s.current_size_changing_ops = countSC s.inflight
  nsc_count : s.current_non_size_changing_ops = countNSC s.inflight
  ex_flag : s.exclusive_running = true ↔ countEx s.inflight ≠ 0
  ex_le : countEx s.inflight ≤ 1
  ex_alone : countEx s.inflight ≠ 0 → countSC s.inflight = 0 ∧ countNSC s.inflight = 0
  sc_le : s.current_size_changing_ops ≤ s.max_size_changing_ops

theorem invcore_dispatch {s : State} {c : Op}
    (hv : InvCore s) (h : may_dispatch s c = true) : InvCore (dispatch s c) := by
  unfold may_dispatch at h
  obtain ⟨u1, u2, u3, u4, u5, u6, u7, u8, u9, u10⟩ := update_logical_keeps s c
  split at h
  · -- exclusive candidate: both counters zero, no exclusive running
    rename_i hex
    rw [decide_eq_true_iff] at h
    obtain ⟨hsc0, hnsc0, hfl⟩ := h
    have hcx : countEx s.inflight = 0 := by
      by_contra hne
      exact absurd (hv.ex_flag.mpr hne) (by simp [hfl])
    have hnil : s.inflight = [] :=
      inflight_nil_of_counts _ hcx (hv.sc_count ▸ hsc0) (hv.nsc_count ▸ hnsc0)
    have hd : dispatch s c =
        { update_logical s c with
          exclusive_running := true
          inflight := ⟨c, size_changing s c, must_run_alone s c⟩ :: (update_logical s c).inflight } := by
      unfold dispatch add_inflight
      simp [hex]
    rw [hd]
    refine ⟨?_, ?_, ?_, ?_, ?_, ?_⟩ <;>
      simp [u3, u4, u5, u9, hnil, countSC_cons, countNSC_cons, countEx_cons,
        countSC_nil, countNSC_nil, countEx_nil, hex, hsc0, hnsc0]
  · split at h
    · -- size-changing candidate: below the maximum, no exclusive running
      rename_i hex hsc
      rw [decide_eq_true_iff] at h
      obtain ⟨hlt, hfl⟩ := h
      replace hex : must_run_alone s c = false := by
        revert hex
        cases must_run_alone s c <;> simp
      have hcx : countEx s.inflight = 0 := by
        by_contra hne
        exact absurd (hv.ex_flag.mpr hne) (by simp [hfl])
      have hd : dispatch s c =
          { update_logical s c with
            current_size_changing_ops := (update_logical s c).current_size_changing_ops + 1
            inflight := ⟨c, size_changing s c, must_run_alone s c⟩ :: (update_logical s c).inflight } := by
        unfold dispatch add_inflight
        simp [hex, hsc]
      rw [hd]
      refine ⟨?_, ?_, ?_, ?_, ?_, ?_⟩
      · simp [u5, u9, countSC_cons, hex, hsc, hv.sc_count, Nat.add_comm]
      · simp [u4, u9, countNSC_cons, hex, hsc, hv.nsc_count]
      · simp only [u6, u9, countEx_cons, hex, if_neg Bool.false_ne_true]
        simpa using hv.ex_flag
      · simp [u9, countEx_cons, hex, hcx]
      · simp [u9, countEx_cons, hex, hcx]
      · simp only [u3, u5]
        omega
    · -- ordinary candidate: only needs no exclusive running
      rename_i hex hsc
      rw [decide_eq_true_iff] at h
      replace hex : must_run_alone s c = false := by
        revert hex
        cases must_run_alone s c <;> simp
      replace hsc : size_changing s c = false := by
        revert hsc
        cases size_changing s c <;> simp
      have hcx : countEx s.inflight = 0 := by
        by_contra hne
        exact absurd (hv.ex_flag.mpr hne) (by simp [h])
      have hd : dispatch s c =
          { update_logical s c with
            current_non_size_changing_ops := (update_logical s c).current_non_size_changing_ops + 1
            inflight := ⟨c, size_changing s c, must_run_alone s c⟩ :: (update_logical s c).inflight } := by
        unfold dispatch add_inflight
        simp [hex, hsc]
      rw [hd]
      refine ⟨?_, ?_, ?_, ?_, ?_, ?_⟩
      · simp [u5, u9, countSC_cons, hex, hsc, hv.sc_count]
      · simp [u4, u9, countNSC_cons, hex, hsc, hv.nsc_count, Nat.add_comm]
      · simp only [u6, u9, countEx_cons, hex, if_neg Bool.false_ne_true]
        simpa using hv.ex_flag
      · simp [u9, countEx_cons, hex, hcx]
      · simp [u9, countEx_cons, hex, hcx]
      · simp only [u3, u5]
        exact hv.sc_le

theorem invcore_scan (q : List Op) : ∀ s : State, InvCore s → InvCore (scanQueue s q).1 := by
  induction q with
  | nil => intro s hv; simpa [scanQueue] using hv
  | cons c rest ih =>
    intro s hv
    unfold scanQueue
    split
    · rename_i hmd
      exact ih _ (invcore_dispatch hv hmd)
    · split
      · simpa using hv
      · simpa using ih s hv

theorem scan_keeps (q : List Op) : ∀ s : State,
    (scanQueue s q).1.committed_size = s.committed_size ∧
    (scanQueue s q).1.max_size_changing_ops = s.max_size_changing_ops ∧
    (scanQueue s q).1.fsync_is_exclusive = s.fsync_is_exclusive ∧
    (scanQueue s q).1.closing_state = s.closing_state ∧
    (scanQueue s q).1.close_fulfilled = s.close_fulfilled := by
  induction q with
  | nil => intro s; simp [scanQueue]
  | cons c rest ih =>
    intro s
    unfold scanQueue
    split
    · obtain ⟨d1, d2, d3, d4, d5, d6⟩ := dispatch_keeps s c
      obtain ⟨e1, e2, e3, e4, e5⟩ := ih (dispatch s c)
      refine ⟨?_, ?_, ?_, ?_, ?_⟩ <;> simp_all
    · split
      · simp
      · simpa using ih s

theorem dispatch_sc_counter (s : State) (c : Op) :
    (dispatch s c).current_size_changing_ops =
      if must_run_alone s c then s.current_size_changing_ops
      else if size_changing s c then s.current_size_changing_ops + 1
      else s.current_size_changing_ops := by
  obtain ⟨u1, u2, u3, u4, u5, u6, u7, u8, u9, u10⟩ := update_logical_keeps s c
  cases hex : must_run_alone s c <;> cases hsc : size_changing s c <;>
    simp [dispatch, add_inflight, hex, hsc, u5]

theorem dispatch_sc_le {s : State} {c : Op} (hmd : may_dispatch s c = true)
    (h : s.current_size_changing_ops ≤ s.max_size_changing_ops) :
    (dispatch s c).current_size_changing_ops ≤ (dispatch s c).max_size_changing_ops := by
  obtain ⟨d1, d2, d3, d4, d5, d6⟩ := dispatch_keeps s c
  rw [dispatch_sc_counter, d3]
  unfold may_dispatch at hmd
  cases hex : must_run_alone s c
  · cases hsc : size_changing s c
    · simpa [hex, hsc] using h
    · rw [hex, hsc] at hmd
      simp only [Bool.false_eq_true, if_false, if_true, decide_eq_true_iff] at hmd
      simp only [hex, hsc, Bool.false_eq_true, if_false, if_true]
      omega
  · simpa [hex] using h

theorem scan_sc_le (q : List Op) : ∀ s : State,
    s.current_size_changing_ops ≤ s.max_size_changing_ops →
    (scanQueue s q).1.current_size_changing_ops ≤ (scanQueue s q).1.max_size_changing_ops := by
  induction q with
  | nil => intro s h; simpa [scanQueue] using h
  | cons c rest ih =>
    intro s h
    unfold scanQueue
    split
    · rename_i hmd
      exact ih _ (dispatch_sc_le hmd h)
    · split
      · simpa using h
      · simpa using ih s h

theorem scan_q_subset (q : List Op) : ∀ s : State, ∀ o : Op, o ∈ (scanQueue s q).2 → o ∈ q := by
  induction q with
  | nil => intro s o ho; simp [scanQueue] at ho
  | cons c rest ih =>
    intro s o ho
    unfold scanQueue at ho
    split at ho
    · exact List.mem_cons_of_mem _ (ih _ _ ho)
    · split at ho
      · exact ho
      · simp only at ho
        rcases List.mem_cons.mp ho with h | h
        · exact h ▸ List.mem_cons_self _ _
        · exact List.mem_cons_of_mem _ (ih _ _ h)

theorem quit_check_keeps (t : State) :
    (quit_check t).committed_size = t.committed_size ∧
    (quit_check t).logical_size = t.logical_size ∧
    (quit_check t).q = t.q ∧
    (quit_check t).max_size_changing_ops = t.max_size_changing_ops ∧
    (quit_check t).current_non_size_changing_ops = t.current_non_size_changing_ops ∧
    (quit_check t).current_size_changing_ops = t.current_size_changing_ops ∧
    (quit_check t).exclusive_running = t.exclusive_running ∧
    (quit_check t).fsync_is_exclusive = t.fsync_is_exclusive ∧
    (quit_check t).inflight = t.inflight ∧
    (quit_check t).close_fulfilled = t.close_fulfilled := by
  unfold quit_check
  split <;> simp

theorem quit_check_closing (t : State) :
    (quit_check t).closing_state = t.closing_state ∨
    (t.closing_state = state.draining ∧ t.q = [] ∧
     t.current_size_changing_ops = 0 ∧ t.current_non_size_changing_ops = 0 ∧
     t.exclusive_running = false ∧ (quit_check t).closing_state = state.closing) := by
  unfold quit_check
  split
  · rename_i hq
    unfold may_quit at hq
    rw [decide_eq_true_iff] at hq
    right
    exact ⟨hq.1, hq.2.1, hq.2.2.2.1, hq.2.2.1, hq.2.2.2.2, rfl⟩
  · left
    rfl

theorem quit_check_invcore {t : State} (hv : InvCore t) : InvCore (quit_check t) := by
  unfold quit_check
  split
  · exact ⟨hv.sc_count, hv.nsc_count, hv.ex_flag, hv.ex_le, hv.ex_alone, hv.sc_le⟩
  · exact hv

theorem process_queue_invcore {s : State} (hv : InvCore s) : InvCore (process_queue s) := by
  unfold process_queue
  have h1 : InvCore (scanQueue s s.q).1 := invcore_scan _ _ hv
  exact quit_check_invcore ⟨h1.sc_count, h1.nsc_count, h1.ex_flag, h1.ex_le, h1.ex_alone, h1.sc_le⟩

theorem process_queue_keeps (s : State) :
    (process_queue s).committed_size = s.committed_size ∧
    (process_queue s).max_size_changing_ops = s.max_size_changing_ops ∧
    (process_queue s).fsync_is_exclusive = s.fsync_is_exclusive ∧
    (process_queue s).close_fulfilled = s.close_fulfilled := by
  unfold process_queue
  obtain ⟨e1, e2, e3, e4, e5⟩ := scan_keeps s.q s
  obtain ⟨k1, k2, k3, k4, k5, k6, k7, k8, k9, k10⟩ :=
    quit_check_keeps { (scanQueue s s.q).1 with q := (scanQueue s s.q).2 }
  exact ⟨by rw [k1]; exact e1, by rw [k4]; exact e2, by rw [k8]; exact e3, by rw [k10]; exact e5⟩

theorem process_queue_closing (s : State) :
    (process_queue s).closing_state = s.closing_state ∨
    (s.closing_state = state.draining ∧
     (process_queue s).closing_state = state.closing ∧
     (process_queue s).q = [] ∧
     (process_queue s).current_size_changing_ops = 0 ∧
     (process_queue s).current_non_size_changing_ops = 0 ∧
     (process_queue s).exclusive_running = false) := by
  unfold process_queue
  obtain ⟨e1, e2, e3, e4, e5⟩ := scan_keeps s.q s
  obtain ⟨k1, k2, k3, k4, k5, k6, k7, k8, k9, k10⟩ :=
    quit_check_keeps { (scanQueue s s.q).1 with q := (scanQueue s s.q).2 }
  rcases quit_check_closing { (scanQueue s s.q).1 with q := (scanQueue s s.q).2 } with
    h | ⟨hd, hq, hsc, hnsc, hex, hcl⟩
  · left
    rw [h]
    exact e4
  · right
    refine ⟨?_, hcl, ?_, ?_, ?_, ?_⟩
    · rw [← e4]
      exact hd
    · rw [k3]
      exact hq
    · rw [k6]
      exact hsc
    · rw [k5]
      exact hnsc
    · rw [k7]
      exact hex

theorem process_queue_sc_le {s : State}
    (h : s.current_size_changing_ops ≤ s.max_size_changing_ops) :
    (process_queue s).current_size_changing_ops ≤ (process_queue s).max_size_changing_ops := by
  unfold process_queue
  have h1 := scan_sc_le s.q s h
  obtain ⟨k1, k2, k3, k4, k5, k6, k7, k8, k9, k10⟩ :=
    quit_check_keeps { (scanQueue s s.q).1 with q := (scanQueue s s.q).2 }
  rw [k6, k4]
  exact h1

theorem process_queue_q_subset (s : State) :
    ∀ o : Op, o ∈ (process_queue s).q → o ∈ s.q := by
  intro o ho
  unfold process_queue at ho
  obtain ⟨k1, k2, k3, k4, k5, k6, k7, k8, k9, k10⟩ :=
    quit_check_keeps { (scanQueue s s.q).1 with q := (scanQueue s s.q).2 }
  rw [k3] at ho
  exact scan_q_subset s.q s o ho

theorem process_queue_nilq {s : State} (h : s.q = []) :
    (process_queue s).q = [] ∧ (process_queue s).inflight = s.inflight ∧
    (process_queue s).committed_size = s.committed_size ∧
    (process_queue s).logical_size = s.logical_size ∧
    (process_queue s).current_size_changing_ops = s.current_size_changing_ops ∧
    (process_queue s).current_non_size_changing_ops = s.current_non_size_changing_ops ∧
    (process_queue s).exclusive_running = s.exclusive_running ∧
    (process_queue s).close_fulfilled = s.close_fulfilled := by
  unfold process_queue
  rw [h]
  have hs : scanQueue s [] = (s, ([] : List Op)) := rfl
  rw [hs]
  obtain ⟨k1, k2, k3, k4, k5, k6, k7, k8, k9, k10⟩ :=
    quit_check_keeps { s with q := ([] : List Op) }
  exact ⟨by rw [k3], by rw [k9], by rw [k1], by rw [k2], by rw [k6], by rw [k5],
    by rw [k7], by rw [k10]⟩

/-- Lifecycle invariant: in closing and closed states the queue and the
in-flight set are empty, and the close promise is fulfilled only in the
closed state. -/
structure InvLife (s : State) : Prop where
  closed_q : s.closing_state = state.closing ∨ s.closing_state = state.closed →
    s.q = [] ∧ s.inflight = []
  fulfilled_closed : s.close_fulfilled = true → s.closing_state = state.closed

/-- The full scheduler invariant. -/
def Inv (s : State) : Prop := InvCore s ∧ InvLife s

theorem inflight_nil_of_state {t : State} (hc : InvCore t)
    (hsc : t.current_size_changing_ops = 0) (hnsc : t.current_non_size_changing_ops = 0)
    (hex : t.exclusive_running = false) : t.inflight = [] := by
  have hcx : countEx t.inflight = 0 := by
    by_contra hne
    exact absurd (hc.ex_flag.mpr hne) (by simp [hex])
  exact inflight_nil_of_counts _ hcx (hc.sc_count ▸ hsc) (hc.nsc_count ▸ hnsc)

theorem inv_process_queue {s : State} (hv : Inv s) : Inv (process_queue s) := by
  obtain ⟨hc, hl⟩ := hv
  have hc' : InvCore (process_queue s) := process_queue_invcore hc
  refine ⟨hc', ?_, ?_⟩
  · -- closing or closed after the loop forces empty queue and in-flight set
    intro hcc
    rcases process_queue_closing s with heq | ⟨hd, hcl, hq, hsc, hnsc, hex⟩
    · -- the loop did not change the lifecycle state
      rw [heq] at hcc
      obtain ⟨hq0, hifl0⟩ := hl.closed_q hcc
      obtain ⟨n1, n2, n3, n4, n5, n6, n7, n8⟩ := process_queue_nilq hq0
      exact ⟨n1, by rw [n2, hifl0]⟩
    · exact ⟨hq, inflight_nil_of_state hc' hsc hnsc hex⟩
  · intro hf
    obtain ⟨p1, p2, p3, p4⟩ := process_queue_keeps s
    rw [p4] at hf
    have hcl := hl.fulfilled_closed hf
    rcases process_queue_closing s with heq | ⟨hd, _, _, _, _, _⟩
    · rw [heq, hcl]
    · rw [hcl] at hd
      cases hd

theorem inv_enqueue_op {s : State} {o : Op} (hv : Inv s)
    (hopen : s.closing_state = state.open_) : Inv (enqueue_op s o) := by
  unfold enqueue_op
  refine inv_process_queue ⟨?_, ?_, ?_⟩
  · exact ⟨hv.1.sc_count, hv.1.nsc_count, hv.1.ex_flag, hv.1.ex_le, hv.1.ex_alone, hv.1.sc_le⟩
  · intro hcc
    rcases hcc with hcc | hcc <;> (rw [show ({ s with q := s.q ++ [o] } : State).closing_state
      = s.closing_state from rfl, hopen] at hcc; cases hcc)
  · intro hf
    have := hv.2.fulfilled_closed hf
    rw [hopen] at this
    cases this

theorem countSC_split (l₁ l₂ : List InFlight) (i : InFlight) :
    countSC (l₁ ++ i :: l₂) = countSC (l₁ ++ l₂) + (if !i.excl && i.sc then 1 else 0) := by
  rw [countSC_append, countSC_cons, countSC_append]
  omega

theorem countNSC_split (l₁ l₂ : List InFlight) (i : InFlight) :
    countNSC (l₁ ++ i :: l₂) = countNSC (l₁ ++ l₂) + (if !i.excl && !i.sc then 1 else 0) := by
  rw [countNSC_append, countNSC_cons, countNSC_append]
  omega

theorem countEx_split (l₁ l₂ : List InFlight) (i : InFlight) :
    countEx (l₁ ++ i :: l₂) = countEx (l₁ ++ l₂) + (if i.excl then 1 else 0) := by
  rw [countEx_append, countEx_cons, countEx_append]
  omega

theorem dec_counter_keeps (s : State) (i : InFlight) :
    (dec_counter s i).committed_size = s.committed_size ∧
    (dec_counter s i).logical_size = s.logical_size ∧
    (dec_counter s i).q = s.q ∧
    (dec_counter s i).max_size_changing_ops = s.max_size_changing_ops ∧
    (dec_counter s i).fsync_is_exclusive = s.fsync_is_exclusive ∧
    (dec_counter s i).closing_state = s.closing_state ∧
    (dec_counter s i).inflight = s.inflight ∧
    (dec_counter s i).close_fulfilled = s.close_fulfilled := by
  unfold dec_counter
  split
  · simp
  · split <;> simp

theorem invcore_commit {t : State} (hc : InvCore t) (sz : Nat) : InvCore (commit_size t sz) :=
  ⟨hc.sc_count, hc.nsc_count, hc.ex_flag, hc.ex_le, hc.ex_alone, hc.sc_le⟩

theorem invcore_complete_mid {s : State} {l₁ l₂ : List InFlight} {i : InFlight}
    (hc : InvCore s) (hm : s.inflight = l₁ ++ i :: l₂) :
    InvCore (dec_counter { s with inflight := l₁ ++ l₂ } i) := by
  have hmem : i ∈ s.inflight := by
    rw [hm]
    exact List.mem_append_right _ (List.mem_cons_self _ _)
  cases hx : i.excl
  · have hd : dec_counter { s with inflight := l₁ ++ l₂ } i =
        (if i.sc then
          { s with
            inflight := l₁ ++ l₂
            current_size_changing_ops := s.current_size_changing_ops - 1 }
        else
          { s with
            inflight := l₁ ++ l₂
            current_non_size_changing_ops := s.current_non_size_changing_ops - 1 }) := by
      unfold dec_counter
      simp [hx]
    have hef := hc.ex_flag
    rw [hm, countEx_split, hx] at hef
    simp only [Bool.false_eq_true, if_false, Nat.add_zero] at hef
    have hele := hc.ex_le
    rw [hm, countEx_split, hx] at hele
    simp only [Bool.false_eq_true, if_false, Nat.add_zero] at hele
    cases hsc : i.sc
    · -- ordinary completion: non-size-changing counter decremented
      rw [hd]
      have hcount := hc.nsc_count
      rw [hm, countNSC_split, hx, hsc] at hcount
      simp only [Bool.not_false, Bool.and_self, if_true] at hcount
      simp only [hsc, Bool.false_eq_true, if_false]
      refine ⟨?_, ?_, ?_, ?_, ?_, ?_⟩
      · show s.current_size_changing_ops = countSC (l₁ ++ l₂)
        rw [hc.sc_count, hm, countSC_split, hx, hsc]
        simp
      · show s.current_non_size_changing_ops - 1 = countNSC (l₁ ++ l₂)
        omega
      · exact hef
      · exact hele
      · intro hne
        have hne' : countEx s.inflight ≠ 0 := by
          rw [hm, countEx_split, hx]
          simpa using hne
        obtain ⟨ha, hb⟩ := hc.ex_alone hne'
        rw [hm, countNSC_split, hx, hsc] at hb
        simp at hb
      · exact hc.sc_le
    · -- size-changing completion: size-changing counter decremented
      rw [hd]
      have hcount := hc.sc_count
      rw [hm, countSC_split, hx, hsc] at hcount
      simp only [Bool.not_false, Bool.and_self, if_true] at hcount
      simp only [hsc, if_true]
      refine ⟨?_, ?_, ?_, ?_, ?_, ?_⟩
      · show s.current_size_changing_ops - 1 = countSC (l₁ ++ l₂)
        omega
      · show s.current_non_size_changing_ops = countNSC (l₁ ++ l₂)
        rw [hc.nsc_count, hm, countNSC_split, hx, hsc]
        simp
      · exact hef
      · exact hele
      · intro hne
        have hne' : countEx s.inflight ≠ 0 := by
          rw [hm, countEx_split, hx]
          simpa using hne
        obtain ⟨ha, hb⟩ := hc.ex_alone hne'
        rw [hm, countSC_split, hx, hsc] at ha
        simp at ha
      · show s.current_size_changing_ops - 1 ≤ s.max_size_changing_ops
        exact le_trans (Nat.sub_le _ _) hc.sc_le
  · -- exclusive completion: it ran alone, so nothing else was in flight
    have hcx1 : countEx s.inflight ≠ 0 :=
      Nat.pos_iff_ne_zero.mp (countEx_pos_of_mem hmem hx)
    obtain ⟨ha, hb⟩ := hc.ex_alone hcx1
    have hlen : s.inflight.length = 1 := by
      have hp := count_partition s.inflight
      have hle := hc.ex_le
      omega
    have h1 : l₁ = [] := by
      apply List.length_eq_zero.mp
      rw [hm] at hlen
      simp only [List.length_append, List.length_cons] at hlen
      omega
    have h2 : l₂ = [] := by
      apply List.length_eq_zero.mp
      rw [hm] at hlen
      simp only [List.length_append, List.length_cons] at hlen
      omega
    subst h1
    subst h2
    have hd : dec_counter { s with inflight := ([] : List InFlight) ++ [] } i =
        { s with inflight := ([] : List InFlight), exclusive_running := false } := by
      unfold dec_counter
      simp [hx]
    rw [hd]
    have hsc0 : s.current_size_changing_ops = 0 := by rw [hc.sc_count, ha]
    have hnsc0 : s.current_non_size_changing_ops = 0 := by rw [hc.nsc_count, hb]
    refine ⟨?_, ?_, ?_, ?_, ?_, ?_⟩ <;>
      simp [countSC_nil, countNSC_nil, countEx_nil, hsc0, hnsc0, hc.sc_le]

theorem inv_complete_op {s : State} {l₁ l₂ : List InFlight} {i : InFlight} (hv : Inv s)
    (hm : s.inflight = l₁ ++ i :: l₂) : Inv (complete_op s l₁ l₂ i) := by
  obtain ⟨hc, hl⟩ := hv
  have hnotclosing : s.closing_state ≠ state.closing := by
    intro hcc
    have := (hl.closed_q (Or.inl hcc)).2
    rw [hm] at this
    simp at this
  have hnotclosed : s.closing_state ≠ state.closed := by
    intro hcc
    have := (hl.closed_q (Or.inr hcc)).2
    rw [hm] at this
    simp at this
  have hnotful : s.close_fulfilled = false := by
    cases hf : s.close_fulfilled
    · rfl
    · exact absurd (hl.fulfilled_closed hf) hnotclosed
  obtain ⟨d1, d2, d3, d4, d5, d6, d7, d8⟩ :=
    dec_counter_keeps { s with inflight := l₁ ++ l₂ } i
  have hmidc : (if i.sc then
        commit_size (dec_counter { s with inflight := l₁ ++ l₂ } i) (op_new_size i.o)
      else dec_counter { s with inflight := l₁ ++ l₂ } i).closing_state = s.closing_state := by
    split <;> exact d6
  have hmidf : (if i.sc then
        commit_size (dec_counter { s with inflight := l₁ ++ l₂ } i) (op_new_size i.o)
      else dec_counter { s with inflight := l₁ ++ l₂ } i).close_fulfilled = s.close_fulfilled := by
    split <;> exact d8
  unfold complete_op
  refine inv_process_queue ⟨?_, ?_, ?_⟩
  · -- InvCore of the intermediate state
    have hcm := invcore_complete_mid hc hm
    split
    · exact invcore_commit hcm _
    · exact hcm
  · -- closing or closed is impossible here: something was in flight
    intro hcc
    rcases hcc with hcc | hcc
    · rw [hmidc] at hcc
      exact absurd hcc hnotclosing
    · rw [hmidc] at hcc
      exact absurd hcc hnotclosed
  · intro hf
    rw [hmidf, hnotful] at hf
    exact absurd hf Bool.false_ne_true

theorem inv_close_step {s : State} (hv : Inv s) : Inv (close_step s) := by
  unfold close_step
  split
  · rename_i hopen
    refine inv_process_queue ⟨?_, ?_, ?_⟩
    · exact ⟨hv.1.sc_count, hv.1.nsc_count, hv.1.ex_flag, hv.1.ex_le, hv.1.ex_alone, hv.1.sc_le⟩
    · intro hcc
      rcases hcc with hcc | hcc <;> cases hcc
    · intro hf
      have hcl := hv.2.fulfilled_closed hf
      rw [hopen] at hcl
      cases hcl
  · exact hv

theorem inv_release_step {s : State} (hv : Inv s) : Inv (release_step s) := by
  unfold release_step
  split
  · rename_i hcl
    obtain ⟨hq, hifl⟩ := hv.2.closed_q (Or.inl hcl)
    refine ⟨⟨hv.1.sc_count, hv.1.nsc_count, hv.1.ex_flag, hv.1.ex_le, hv.1.ex_alone,
      hv.1.sc_le⟩, ?_, ?_⟩
    · intro _
      exact ⟨hq, hifl⟩
    · intro _
      rfl
  · exact hv

theorem inv_init (sz maxOps : Nat) (fsyncExcl : Bool) : Inv (init sz maxOps fsyncExcl) := by
  refine ⟨⟨rfl, rfl, by simp [init, countEx_nil], by simp [init, countEx_nil], ?_,
    Nat.zero_le _⟩, ?_, ?_⟩
  · intro hne
    exact absurd (show countEx (init sz maxOps fsyncExcl).inflight = 0 from rfl) hne
  · intro hcc
    rcases hcc with hcc | hcc <;> cases hcc
  · intro hf
    cases hf

theorem inv_step {s t : State} (hv : Inv s) (hs : Step s t) : Inv t := by
  cases hs with
  | submit o hopen => exact inv_enqueue_op hv hopen
  | complete l₁ l₂ i hm => exact inv_complete_op hv hm
  | close => exact inv_close_step hv
  | release => exact inv_release_step hv

theorem inv_reachable {s : State} (h : Reachable s) : Inv s := by
  induction h with
  | start sz maxOps fsyncExcl => exact inv_init sz maxOps fsyncExcl
  | step _ hs ih => exact inv_step ih hs

/-- Invariant for truncate-free traces: the committed size never exceeds
the logical size, no truncate is queued or in flight, and every
in-flight size-changing operation commits a size within the logical
size. -/
structure InvNT (s : State) : Prop where
  log_comm : s.committed_size ≤ s.logical_size
  q_nt : ∀ o ∈ s.q, o.type ≠ Opcode.truncate
  fl_nt : ∀ j ∈ s.inflight, j.o.type ≠ Opcode.truncate
  fl_size : ∀ j ∈ s.inflight, j.sc = true → op_new_size j.o ≤ s.logical_size

theorem size_changing_type {s : State} {c : Op} (h : size_changing s c = true) :
    c.type = Opcode.write ∨ c.type = Opcode.truncate := by
  unfold size_changing at h
  cases hc : c.type <;> rw [hc] at h <;> simp_all

theorem update_logical_write {s : State} {c : Op} (h : c.type = Opcode.write) :
    (update_logical s c).logical_size = max s.logical_size (c.pos + c.len) := by
  simp [update_logical, h]

theorem invnt_dispatch {s : State} {c : Op} (hv : InvNT s)
    (hc : c.type ≠ Opcode.truncate) : InvNT (dispatch s c) := by
  obtain ⟨d1, d2, d3, d4, d5, d6⟩ := dispatch_keeps s c
  obtain ⟨u1, u2, u3, u4, u5, u6, u7, u8, u9, u10⟩ := update_logical_keeps s c
  obtain ⟨a1, a2, a3, a4, a5, a6, a7, a8⟩ :=
    add_inflight_keeps (update_logical s c)
      { o := c, sc := size_changing s c, excl := must_run_alone s c }
  have hge : s.logical_size ≤ (update_logical s c).logical_size := update_logical_ge s c hc
  refine ⟨?_, ?_, ?_, ?_⟩
  · rw [show dispatch s c = add_inflight (update_logical s c)
      { o := c, sc := size_changing s c, excl := must_run_alone s c } from rfl, a2, a1, u1]
    exact le_trans hv.log_comm hge
  · intro o ho
    rw [d2] at ho
    exact hv.q_nt o ho
  · intro j hj
    rw [show dispatch s c = add_inflight (update_logical s c)
      { o := c, sc := size_changing s c, excl := must_run_alone s c } from rfl, a7, u9] at hj
    rcases List.mem_cons.mp hj with hj | hj
    · rw [hj]
      exact hc
    · exact hv.fl_nt j hj
  · intro j hj hjsc
    rw [show dispatch s c = add_inflight (update_logical s c)
      { o := c, sc := size_changing s c, excl := must_run_alone s c } from rfl, a7, u9] at hj
    rw [show (dispatch s c).logical_size = (add_inflight (update_logical s c)
      { o := c, sc := size_changing s c, excl := must_run_alone s c }).logical_size from rfl, a2]
    rcases List.mem_cons.mp hj with hj | hj
    · rw [hj] at hjsc ⊢
      have hw : c.type = Opcode.write := by
        rcases size_changing_type (by simpa using hjsc) with hw | ht
        · exact hw
        · exact absurd ht hc
      rw [show ({ o := c, sc := size_changing s c, excl := must_run_alone s c } : InFlight).o
        = c from rfl]
      rw [update_logical_write hw]
      unfold op_new_size
      rw [hw]
      exact Nat.le_max_right _ _
    · exact le_trans (hv.fl_size j hj hjsc) hge

theorem invnt_scan (q : List Op) : ∀ s : State, InvNT s →
    (∀ o ∈ q, o.type ≠ Opcode.truncate) →
    InvNT (scanQueue s q).1 ∧ ∀ o ∈ (scanQueue s q).2, o.type ≠ Opcode.truncate := by
  induction q with
  | nil =>
    intro s hv hq
    constructor
    · simpa [scanQueue] using hv
    · intro o ho
      simp [scanQueue] at ho
  | cons c rest ih =>
    intro s hv hq
    have hc : c.type ≠ Opcode.truncate := hq c (List.mem_cons_self _ _)
    have hrest : ∀ o ∈ rest, o.type ≠ Opcode.truncate :=
      fun o ho => hq o (List.mem_cons_of_mem _ ho)
    unfold scanQueue
    split
    · exact ih _ (invnt_dispatch hv hc) hrest
    · split
      · exact ⟨hv, hq⟩
      · obtain ⟨h1, h2⟩ := ih s hv hrest
        refine ⟨by simpa using h1, ?_⟩
        intro o ho
        simp only [] at ho
        rcases List.mem_cons.mp ho with ho | ho
        · exact ho ▸ hc
        · exact h2 o ho

theorem invnt_quit_check {t : State} (hv : InvNT t) : InvNT (quit_check t) := by
  unfold quit_check
  split
  · exact ⟨hv.log_comm, hv.q_nt, hv.fl_nt, hv.fl_size⟩
  · exact hv

theorem invnt_process_queue {s : State} (hv : InvNT s) : InvNT (process_queue s) := by
  unfold process_queue
  obtain ⟨h1, h2⟩ := invnt_scan s.q s hv hv.q_nt
  exact invnt_quit_check ⟨h1.log_comm, h2, h1.fl_nt, h1.fl_size⟩

theorem invnt_enqueue_op {s : State} {o : Op} (hv : InvNT s)
    (ho : o.type ≠ Opcode.truncate) : InvNT (enqueue_op s o) := by
  unfold enqueue_op
  refine invnt_process_queue ⟨hv.log_comm, ?_, hv.fl_nt, hv.fl_size⟩
  intro p hp
  rcases List.mem_append.mp hp with hp | hp
  · exact hv.q_nt p hp
  · rw [List.mem_singleton.mp hp]
    exact ho

theorem invnt_complete_op {s : State} {l₁ l₂ : List InFlight} {i : InFlight} (hv : InvNT s)
    (hm : s.inflight = l₁ ++ i :: l₂) : InvNT (complete_op s l₁ l₂ i) := by
  have hmem : i ∈ s.inflight := by
    rw [hm]
    exact List.mem_append_right _ (List.mem_cons_self _ _)
  have hsub : ∀ j : InFlight, j ∈ l₁ ++ l₂ → j ∈ s.inflight := by
    intro j hj
    rw [hm]
    rcases List.mem_append.mp hj with hj | hj
    · exact List.mem_append_left _ hj
    · exact List.mem_append_right _ (List.mem_cons_of_mem _ hj)
  obtain ⟨d1, d2, d3, d4, d5, d6, d7, d8⟩ :=
    dec_counter_keeps { s with inflight := l₁ ++ l₂ } i
  unfold complete_op
  apply invnt_process_queue
  have hmid : InvNT (dec_counter { s with inflight := l₁ ++ l₂ } i) := by
    refine ⟨?_, ?_, ?_, ?_⟩
    · rw [d1, d2]
      exact hv.log_comm
    · intro o ho
      rw [d3] at ho
      exact hv.q_nt o ho
    · intro j hj
      rw [d7] at hj
      exact hv.fl_nt j (hsub j hj)
    · intro j hj hjsc
      rw [d7] at hj
      rw [d2]
      exact hv.fl_size j (hsub j hj) hjsc
  split
  · rename_i hisc
    refine ⟨?_, hmid.q_nt, hmid.fl_nt, ?_⟩
    · show max (dec_counter { s with inflight := l₁ ++ l₂ } i).committed_size (op_new_size i.o)
        ≤ (dec_counter { s with inflight := l₁ ++ l₂ } i).logical_size
      apply max_le hmid.log_comm
      rw [d2]
      exact hv.fl_size i hmem hisc
    · intro j hj hjsc
      exact hmid.fl_size j hj hjsc
  · exact hmid

theorem invnt_close_step {s : State} (hv : InvNT s) : InvNT (close_step s) := by
  unfold close_step
  split
  · exact invnt_process_queue ⟨hv.log_comm, hv.q_nt, hv.fl_nt, hv.fl_size⟩
  · exact hv

theorem invnt_release_step {s : State} (hv : InvNT s) : InvNT (release_step s) := by
  unfold release_step
  split
  · exact ⟨hv.log_comm, hv.q_nt, hv.fl_nt, hv.fl_size⟩
  · exact hv

theorem invnt_reachable {s : State} (h : ReachableNT s) : InvNT s := by
  induction h with
  | start sz maxOps fsyncExcl =>
    refine ⟨Nat.le_refl _, ?_, ?_, ?_⟩ <;> intro x hx <;> cases hx
  | submit o _ hopen ht ih => exact invnt_enqueue_op ih ht
  | complete l₁ l₂ i _ hm ih => exact invnt_complete_op ih hm
  | close _ ih => exact invnt_close_step ih
  | release _ ih => exact invnt_release_step ih

theorem close_step_id {s : State} (h : s.closing_state ≠ state.open_) : close_step s = s := by
  unfold close_step
  rw [if_neg h]

theorem close_step_closing (s : State) (h : s.closing_state = state.open_) :
    (close_step s).closing_state = state.draining ∨
    (close_step s).closing_state = state.closing := by
  unfold close_step
  rw [if_pos h]
  rcases process_queue_closing { s with closing_state := state.draining } with
    heq | ⟨_, hcl, _, _, _, _⟩
  · left
    rw [heq]
  · right
    exact hcl

/-- Position of a lifecycle state along open → draining → closing → closed. -/
def state_rank : state → Nat
  | state.open_ => 0
  | state.draining => 1
  | state.closing => 2
  | state.closed => 3

theorem complete_mid_closing (s : State) (l₁ l₂ : List InFlight) (i : InFlight) :
    (if i.sc then
      commit_size (dec_counter { s with inflight := l₁ ++ l₂ } i) (op_new_size i.o)
    else dec_counter { s with inflight := l₁ ++ l₂ } i).closing_state = s.closing_state := by
  split <;> exact (dec_counter_keeps { s with inflight := l₁ ++ l₂ } i).2.2.2.2.2.1

/-- Claim C1: for every pending operation and counter state, may_dispatch
holds exactly per the three-branch rule: an exclusive operation needs both
in-flight counters zero and no exclusive operation running; a
size-changing operation needs the size-changing count strictly below the
configured maximum and no exclusive operation running; an ordinary
operation only needs no exclusive operation running, unrestricted by the
size-changing limit. -/
theorem C1_may_dispatch_rule (s : State) (c : Op) :
    may_dispatch s c = true ↔
      (if must_run_alone s c = true then
        s.current_size_changing_ops = 0 ∧ s.current_non_size_changing_ops = 0
          ∧ s.exclusive_running = false
      else if size_changing s c = true then
        s.current_size_changing_ops < s.max_size_changing_ops ∧ s.exclusive_running = false
      else
        s.exclusive_running = false) := by
  unfold may_dispatch
  cases hex : must_run_alone s c <;> cases hsc : size_changing s c <;>
    simp [hex, hsc]

/-- Claim C2: an exclusive (must-run-alone) operation is never in flight
concurrently with any other operation in any reachable state; the scan of
the dispatch loop stops at a blocked exclusive candidate, so nothing
behind it overtakes it, while a blocked non-exclusive candidate is passed
over so compatible later operations can dispatch first. -/
theorem C2_exclusive_isolation :
    (∀ s : State, Reachable s → ∀ i : InFlight, i ∈ s.inflight → i.excl = true →
      s.inflight = [i]) ∧
    (∀ (s : State) (c : Op) (rest : List Op), may_dispatch s c = false →
      must_run_alone s c = true → scanQueue s (c :: rest) = (s, c :: rest)) ∧
    (∀ (s : State) (c : Op) (rest : List Op), may_dispatch s c = false →
      must_run_alone s c = false →
      scanQueue s (c :: rest) = ((scanQueue s rest).1, c :: (scanQueue s rest).2)) := by
  refine ⟨?_, ?_, ?_⟩
  · intro s hr i hi hx
    have hc := (inv_reachable hr).1
    have h1 : countEx s.inflight ≠ 0 := Nat.pos_iff_ne_zero.mp (countEx_pos_of_mem hi hx)
    obtain ⟨ha, hb⟩ := hc.ex_alone h1
    have hlen : s.inflight.length = 1 := by
      have hp := count_partition s.inflight
      have hle := hc.ex_le
      omega
    obtain ⟨a, hA⟩ := List.length_eq_one.mp hlen
    rw [hA] at hi ⊢
    rw [List.mem_singleton.mp hi]
  · intro s c rest h1 h2
    conv_lhs => rw [scanQueue]
    rw [h1, h2]
    rfl
  · intro s c rest h1 h2
    conv_lhs => rw [scanQueue]
    rw [h1, h2]
    rfl

/-- Witness for C2, applied to a state in which an exclusive flush is
blocked by a running exclusive operation: the scan stops at it. -/
theorem C2_witness :
    scanQueue { init 0 1 true with exclusive_running := true }
      [{ type := Opcode.flush, pos := 0, len := 0 }] =
      ({ init 0 1 true with exclusive_running := true },
       [{ type := Opcode.flush, pos := 0, len := 0 }]) :=
  C2_exclusive_isolation.2.1 _ _ _ (by decide) (by decide)

/-- Claim C3: in every reachable state the count of in-flight
size-changing operations is at most the configured maximum, and every
single scheduler step preserves this bound. -/
theorem C3_size_changing_bound :
    (∀ s : State, Reachable s →
      s.current_size_changing_ops ≤ s.max_size_changing_ops) ∧
    (∀ s t : State, Step s t → s.current_size_changing_ops ≤ s.max_size_changing_ops →
      t.current_size_changing_ops ≤ t.max_size_changing_ops) := by
  constructor
  · intro s hr
    exact (inv_reachable hr).1.sc_le
  · intro s t hs hle
    cases hs with
    | submit o hopen =>
      unfold enqueue_op
      exact process_queue_sc_le hle
    | complete l₁ l₂ i hm =>
      unfold complete_op
      apply process_queue_sc_le
      have hmid : ∀ u : State, u.current_size_changing_ops ≤ u.max_size_changing_ops →
          (dec_counter u i).current_size_changing_ops
            ≤ (dec_counter u i).max_size_changing_ops := by
        intro u hu
        unfold dec_counter
        split
        · exact hu
        · split
          · show u.current_size_changing_ops - 1 ≤ u.max_size_changing_ops
            omega
          · exact hu
      split
      · exact hmid _ hle
      · exact hmid _ hle
    | close =>
      unfold close_step
      split
      · exact process_queue_sc_le hle
      · exact hle
    | release =>
      unfold release_step
      split
      · exact hle
      · exact hle

/-- Witness for C3 at the initial state. -/
theorem C3_witness :
    (init 0 1 true).current_size_changing_ops ≤ (init 0 1 true).max_size_changing_ops :=
  C3_size_changing_bound.1 _ (Reachable.start 0 1 true)

/-- Claim C4: commit_size sets committed_size to the maximum of its old
value and the new size, so committed_size never regresses, and every
scheduler step leaves committed_size non-decreasing, whatever the
completion order. -/
theorem C4_commit_monotone :
    (∀ (s : State) (sz : Nat),
      (commit_size s sz).committed_size = max s.committed_size sz ∧
      s.committed_size ≤ (commit_size s sz).committed_size) ∧
    (∀ s t : State, Step s t → s.committed_size ≤ t.committed_size) := by
  constructor
  · intro s sz
    exact ⟨rfl, Nat.le_max_left _ _⟩
  · intro s t hs
    cases hs with
    | submit o hopen =>
      unfold enqueue_op
      rw [(process_queue_keeps { s with q := s.q ++ [o] }).1]
    | complete l₁ l₂ i hm =>
      unfold complete_op
      rw [(process_queue_keeps _).1]
      split
      · show s.committed_size ≤
          max (dec_counter { s with inflight := l₁ ++ l₂ } i).committed_size (op_new_size i.o)
        rw [(dec_counter_keeps { s with inflight := l₁ ++ l₂ } i).1]
        exact Nat.le_max_left _ _
      · rw [(dec_counter_keeps { s with inflight := l₁ ++ l₂ } i).1]
    | close =>
      unfold close_step
      split
      · rw [(process_queue_keeps { s with closing_state := state.draining }).1]
      · exact Nat.le_refl _
    | release =>
      unfold release_step
      split
      · exact Nat.le_refl _
      · exact Nat.le_refl _

/-- Witness for C4 on a concrete close step. -/
theorem C4_witness :
    (init 7 1 true).committed_size ≤ (close_step (init 7 1 true)).committed_size :=
  C4_commit_monotone.2 _ _ (Step.close _)

/-- Claim C5 as stated is false on the code: a truncate below the
committed size is admitted, drops logical_size to the requested length,
while committed_size, which only moves forward by taking maxima, stays
put, so a reachable state has logical_size strictly below
committed_size. -/
theorem C5_counterexample :
    Reachable (enqueue_op (init 100 1 true) { type := Opcode.truncate, pos := 50, len := 0 }) ∧
    (enqueue_op (init 100 1 true) { type := Opcode.truncate, pos := 50, len := 0 }).committed_size = 100 ∧
    (enqueue_op (init 100 1 true) { type := Opcode.truncate, pos := 50, len := 0 }).logical_size = 50 :=
  ⟨Reachable.step (Reachable.start 100 1 true) (Step.submit _ _ rfl), by decide, by decide⟩

/-- Claim C5, amended: in every reachable state of every trace that
submits no truncate, logical_size is at least committed_size; every
scheduler operation preserves the inequality.  A shrinking truncate
breaks the original claim because committed sizes never regress. -/
theorem C5_logical_ge_committed (s : State) (h : ReachableNT s) :
    s.committed_size ≤ s.logical_size :=
  (invnt_reachable h).log_comm

/-- Witness for the amended C5 at the initial state. -/
theorem C5_witness : (init 5 1 true).committed_size ≤ (init 5 1 true).logical_size :=
  C5_logical_ge_committed _ (ReachableNT.start 5 1 true)

/-- Claim C6: the size_changing classification: a Write is size-changing
iff offset+length exceeds the committed size, a Truncate always is, a
Read never is, and a Flush by itself never is (though it may still be
exclusive by policy). -/
theorem C6_size_changing_classification (s : State) (c : Op) :
    (c.type = Opcode.write → (size_changing s c = true ↔ c.pos + c.len > s.committed_size)) ∧
    (c.type = Opcode.truncate → size_changing s c = true) ∧
    (c.type = Opcode.read → size_changing s c = false) ∧
    (c.type = Opcode.flush → size_changing s c = false) := by
  refine ⟨?_, ?_, ?_, ?_⟩ <;> intro h <;> simp [size_changing, h]

/-- Witness for C6 on an extending write. -/
theorem C6_witness :
    size_changing (init 0 1 true) { type := Opcode.write, pos := 0, len := 5 } = true :=
  ((C6_size_changing_classification (init 0 1 true)
    { type := Opcode.write, pos := 0, len := 5 }).1 rfl).mpr (by decide)

/-- Claim C7: whenever close()'s promise is fulfilled in a reachable
state, the queue is empty, both in-flight counters are zero, no
exclusive operation runs, and the lifecycle has reached closed; and any
step that takes the machine from draining into closing leaves it with an
empty queue, zero counters and no exclusive operation. -/
theorem C7_close_completion :
    (∀ s : State, Reachable s → s.close_fulfilled = true →
      s.q = [] ∧ s.current_size_changing_ops = 0 ∧ s.current_non_size_changing_ops = 0 ∧
      s.exclusive_running = false ∧ s.closing_state = state.closed) ∧
    (∀ s t : State, Step s t → s.closing_state = state.draining →
      t.closing_state = state.closing →
      t.q = [] ∧ t.current_size_changing_ops = 0 ∧ t.current_non_size_changing_ops = 0 ∧
      t.exclusive_running = false) := by
  constructor
  · intro s hr hf
    have hv := inv_reachable hr
    have hcl := hv.2.fulfilled_closed hf
    obtain ⟨hq, hifl⟩ := hv.2.closed_q (Or.inr hcl)
    have hsc : s.current_size_changing_ops = 0 := by
      rw [hv.1.sc_count, hifl, countSC_nil]
    have hnsc : s.current_non_size_changing_ops = 0 := by
      rw [hv.1.nsc_count, hifl, countNSC_nil]
    have hfl : s.exclusive_running = false := by
      cases hflag : s.exclusive_running
      · rfl
      · have hne := hv.1.ex_flag.mp hflag
        rw [hifl] at hne
        exact absurd countEx_nil hne
    exact ⟨hq, hsc, hnsc, hfl, hcl⟩
  · intro s t hs hd ht
    cases hs with
    | submit o hopen =>
      rw [hopen] at hd
      cases hd
    | complete l₁ l₂ i hm =>
      unfold complete_op at ht ⊢
      rcases process_queue_closing (if i.sc then
          commit_size (dec_counter { s with inflight := l₁ ++ l₂ } i) (op_new_size i.o)
        else dec_counter { s with inflight := l₁ ++ l₂ } i) with
        heq | ⟨_, _, pq, psc, pnsc, pex⟩
      · rw [heq, complete_mid_closing, hd] at ht
        cases ht
      · exact ⟨pq, psc, pnsc, pex⟩
    | close =>
      rw [close_step_id (by rw [hd]; intro hcc; cases hcc)] at ht
      rw [hd] at ht
      cases ht
    | release =>
      unfold release_step at ht
      rw [if_neg (by rw [hd]; intro hcc; cases hcc)] at ht
      rw [hd] at ht
      cases ht

/-- Witness for C7 on the concrete trace open → draining → closing →
closed of an idle file. -/
theorem C7_witness :
    (release_step (close_step (init 0 1 true))).q = [] ∧
    (release_step (close_step (init 0 1 true))).current_size_changing_ops = 0 ∧
    (release_step (close_step (init 0 1 true))).current_non_size_changing_ops = 0 ∧
    (release_step (close_step (init 0 1 true))).exclusive_running = false ∧
    (release_step (close_step (init 0 1 true))).closing_state = state.closed :=
  C7_close_completion.1 _
    (Reachable.step (Reachable.step (Reachable.start 0 1 true) (Step.close _))
      (Step.release _))
    (by decide)

/-- Claim C8: size returns the current logical size immediately and
without suspension: its result is a pure function of the scheduler state
at the moment of the call, and the state is left untouched. -/
theorem C8_size_pure (s : State) :
    (size s).1 = s.logical_size ∧ (size s).2 = s :=
  ⟨rfl, rfl⟩

/-- Claim C9: close is idempotent: a second call in any state other than
open changes nothing and merely observes the transition under way, and
the lifecycle state only ever advances along open → draining → closing →
closed under any scheduler step. -/
theorem C9_close_idempotent :
    (∀ s : State, s.closing_state ≠ state.open_ → close_step s = s) ∧
    (∀ s : State, close_step (close_step s) = close_step s) ∧
    (∀ s t : State, Step s t → state_rank s.closing_state ≤ state_rank t.closing_state) := by
  refine ⟨?_, ?_, ?_⟩
  · intro s h
    exact close_step_id h
  · intro s
    by_cases hcs : s.closing_state = state.open_
    · have hne : (close_step s).closing_state ≠ state.open_ := by
        rcases close_step_closing s hcs with h | h <;>
          (rw [h]; intro hcc; cases hcc)
      exact close_step_id hne
    · rw [close_step_id hcs]
      exact close_step_id hcs
  · intro s t hs
    cases hs with
    | submit o hopen =>
      rw [hopen]
      exact Nat.zero_le _
    | complete l₁ l₂ i hm =>
      unfold complete_op
      rcases process_queue_closing (if i.sc then
          commit_size (dec_counter { s with inflight := l₁ ++ l₂ } i) (op_new_size i.o)
        else dec_counter { s with inflight := l₁ ++ l₂ } i) with
        heq | ⟨pd, hcl, _, _, _, _⟩
      · rw [heq, complete_mid_closing]
      · have hsd : s.closing_state = state.draining := by
          rw [← complete_mid_closing s l₁ l₂ i]
          exact pd
        rw [hcl, hsd]
        decide
    | close =>
      by_cases hcs : s.closing_state = state.open_
      · rw [hcs]
        exact Nat.zero_le _
      · rw [close_step_id hcs]
    | release =>
      unfold release_step
      split
      · rename_i hcl
        rw [hcl]
        show state_rank state.closing ≤ state_rank state.closed
        decide
      · exact Nat.le_refl _

/-- Witness for C9: a second close in the closed state is the
identity. -/
theorem C9_witness :
    close_step { init 0 1 true with closing_state := state.closed } =
      { init 0 1 true with closing_state := state.closed } :=
  C9_close_idempotent.1 _ (by decide)

/-- Claim C10: when constructing or queueing the operation record fails
at submission time, the caller gets back an already-failed future, the
operation never enters the queue, no counter or queue state changes, and
the submission path itself does not throw (the model returns in every
case). -/
theorem C10_enqueue_failure (s : State) (type : Opcode) (pos len : Nat)
    (pa qp : Bool) (h : pa = false ∨ qp = false) :
    enqueue s type pos len pa qp = (s, EnqueueOutcome.exception_future) := by
  unfold enqueue
  rcases h with h | h <;> rw [h] <;> simp

/-- Witness for C10 on a failed promise allocation. -/
theorem C10_witness :
    enqueue (init 0 1 true) Opcode.write 0 4096 false true =
      (init 0 1 true, EnqueueOutcome.exception_future) :=
  C10_enqueue_failure _ _ _ _ _ _ (Or.inl rfl)

end AppendChallenged
